import Mathlib

/-!
Verification of the `with!` macro of the `with-macro` repository
(`src/lib.rs`).

The macro is a compile-time token rewrite.  We embed it shallowly: the
input token stream of an invocation is a list of token trees `Tok`, the
four `@parse` arms of the `macro_rules!` definition become the ordered
dispatch `matchClause`, the two entry arms become `expandWith`, and the
emitted Rust code is a list of output tokens `OTok`.

The Rust fragment matchers `$e:expr` and `$p:pat` delegate to the host
language's expression/pattern grammar; here they are modelled by
`matchExpr` / `matchPat`, a representative executable subset of that
grammar (paths, literals, groups, macro calls, call/method-call postfix
chains and one-level assignment; patterns are identifiers, literals or
tuple groups).  Everything the subset accepts, Rust's grammar accepts,
and the matchers consume a deterministic prefix exactly as Rust's do.

Output tokens distinguish hygiene contexts exactly as `macro_rules!`
expansion does: `OTok.raw t` is a token captured from the invocation
(caller's hygiene context), while tokens the macro body writes literally
are separate constructors; in particular the binding identifier `obj`
written inside the macro body is `OTok.bind mark`, carrying the fresh
hygiene mark of its expansion instance, so two expansion instances get
distinct binding identifiers even though both are spelled `obj`.
-/

/-- Input token trees of an invocation.  Delimited groups are trees, as in
Rust's `TokenStream` (so delimiters are balanced by construction, matching
the fact that rustc rejects unbalanced delimiters before macro expansion).
Integer literals carry their sign. -/
inductive Tok where
  | ident (s : String)
  | litInt (n : Int)
  | dot
  | semi
  | eq
  | comma
  | fatArrow
  | kwLet
  | kwMut
  | bang
  | pathSep
  | paren (g : List Tok)
  | brace (g : List Tok)

/-- Output tokens of the expansion.  `raw t` is a token transcribed from a
matched fragment of the invocation and keeps the caller's hygiene context;
all other constructors are tokens written literally in the macro body
(definition-site hygiene).  `bind mark` is the identifier `obj` the macro
body writes: each expansion instance carries its own fresh hygiene
`mark`, which is how `macro_rules!` hygiene keeps the several `obj`s
apart. -/
inductive OTok where
  | raw (t : Tok)
  | bind (mark : Nat)
  | dot
  | semi
  | eq
  | comma
  | kwLet
  | kwMut
  | paren (g : List OTok)
  | brace (g : List OTok)

/-- Rust path fragment: `ident (:: ident)*`, e.g. `Vec::new`. Returns the
consumed tokens and the remainder. -/
def matchPath : List Tok → Option (List Tok × List Tok)
  | Tok.ident s :: Tok.pathSep :: rest =>
    match matchPath rest with
    | some (p, r) => some (Tok.ident s :: Tok.pathSep :: p, r)
    | none => none
  | Tok.ident s :: rest => some ([Tok.ident s], rest)
  | _ => none

/-- Leading atom of an expression: a macro call, a path, a literal or a
delimited group. -/
def matchPrimary : List Tok → Option (List Tok × List Tok)
  | Tok.ident s :: Tok.bang :: Tok.paren g :: rest =>
    some ([Tok.ident s, Tok.bang, Tok.paren g], rest)
  | Tok.ident s :: Tok.bang :: Tok.brace g :: rest =>
    some ([Tok.ident s, Tok.bang, Tok.brace g], rest)
  | Tok.ident s :: rest => matchPath (Tok.ident s :: rest)
  | Tok.litInt n :: rest => some ([Tok.litInt n], rest)
  | Tok.paren g :: rest => some ([Tok.paren g], rest)
  | Tok.brace g :: rest => some ([Tok.brace g], rest)
  | _ => none

/-- Greedy postfix chain after an atom: call groups `(..)` and method
calls `.m(..)`, as in Rust's left-recursive postfix expression grammar.
Total: consumes as many postfix steps as are present. -/
def matchCallChain : List Tok → List Tok × List Tok
  | Tok.dot :: Tok.ident m :: Tok.paren g :: rest =>
    let r := matchCallChain rest
    (Tok.dot :: Tok.ident m :: Tok.paren g :: r.1, r.2)
  | Tok.paren g :: rest =>
    let r := matchCallChain rest
    (Tok.paren g :: r.1, r.2)
  | rest => ([], rest)

/-- Simple expression: atom followed by its postfix chain. -/
def matchSimple (ts : List Tok) : Option (List Tok × List Tok) :=
  match matchPrimary ts with
  | none => none
  | some (p, r1) =>
    let c := matchCallChain r1
    some (p ++ c.1, c.2)

/-- Expression fragment matcher, the model of `$e:expr`: a simple
expression, optionally assigned to by another simple expression
(`a = b`, the assignment-expression form the macro's fallback arm must
swallow).  Greedy and deterministic, like Rust's expression parser:
the consumed span does not depend on the tokens that follow it. -/
def matchExpr (ts : List Tok) : Option (List Tok × List Tok) :=
  match matchSimple ts with
  | none => none
  | some (e, r) =>
    match r with
    | Tok.eq :: r2 =>
      match matchSimple r2 with
      | some (e2, r3) => some (e ++ Tok.eq :: e2, r3)
      | none => none
    | _ => some (e, r)

/-- Pattern fragment matcher, the model of `$p:pat`: an identifier, a
literal or a tuple group. -/
def matchPat : List Tok → Option (List Tok × List Tok)
  | Tok.ident s :: rest => some ([Tok.ident s], rest)
  | Tok.litInt n :: rest => some ([Tok.litInt n], rest)
  | Tok.paren g :: rest => some ([Tok.paren g], rest)
  | _ => none

/-- Fuel-indexed matcher for `$($args:expr),*`: a comma-separated,
non-empty, trailing-comma-free expression list that must consume the
whole group.  The fuel is only a structural-recursion device; it is
always called with at least the length of the list. -/
def matchExprList1Aux : Nat → List Tok → Option (List (List Tok))
  | 0, _ => none
  | n + 1, ts =>
    match matchExpr ts with
    | some (e, []) => some [e]
    | some (e, Tok.comma :: r) =>
      match matchExprList1Aux n r with
      | some es => some (e :: es)
      | none => none
    | _ => none

/-- Matcher for one-or-more comma-separated argument expressions. -/
def matchExprList1 (ts : List Tok) : Option (List (List Tok)) :=
  matchExprList1Aux ts.length ts

/-- Matcher for `$($args:expr),*` over the contents of the argument
group: empty, or one-or-more comma-separated expressions. -/
def matchExprList : List Tok → Option (List (List Tok))
  | [] => some []
  | t :: ts => matchExprList1 (t :: ts)

/-- One rewritten clause, the tagged result of the four `@parse` arm
shapes of the macro. -/
inductive Stmt where
  | bareCall (method : String) (args : List (List Tok))
  | letCapture (pat : List Tok) (method : String) (args : List (List Tok))
  | assignCapture (var : String) (method : String) (args : List (List Tok))
  | passthrough (e : List Tok)

/-- Arm `(@parse $obj:ident . $method:ident ( $($args:expr),* ) $($tail:tt)*)`. -/
def armBareCall : List Tok → Option (Stmt × List Tok)
  | Tok.dot :: Tok.ident m :: Tok.paren g :: rest =>
    match matchExprList g with
    | some args => some (Stmt.bareCall m args, rest)
    | none => none
  | _ => none

/-- Arm `(@parse $obj:ident let $var:pat = . $method:ident ( $($args:expr),* ) ; $($tail:tt)*)`. -/
def armLetCapture : List Tok → Option (Stmt × List Tok)
  | Tok.kwLet :: rest =>
    match matchPat rest with
    | some (p, Tok.eq :: Tok.dot :: Tok.ident m :: Tok.paren g :: Tok.semi :: rest2) =>
      match matchExprList g with
      | some args => some (Stmt.letCapture p m args, rest2)
      | none => none
    | _ => none
  | _ => none

/-- Arm `(@parse $obj:ident $var:ident = . $method:ident ( $($args:expr),* ) ; $($tail:tt)*)`. -/
def armAssignCapture : List Tok → Option (Stmt × List Tok)
  | Tok.ident v :: Tok.eq :: Tok.dot :: Tok.ident m :: Tok.paren g :: Tok.semi :: rest =>
    match matchExprList g with
    | some args => some (Stmt.assignCapture v m args, rest)
    | none => none
  | _ => none

/-- Arm `(@parse $obj:ident $exp:expr ; $($tail:tt)*)`, the passthrough
fallback. -/
def armPassthrough (ts : List Tok) : Option (Stmt × List Tok) :=
  match matchExpr ts with
  | some (e, Tok.semi :: rest) => some (Stmt.passthrough e, rest)
  | _ => none

/-- One step of `@parse` dispatch: the four arms are tried in the order
they appear in the `macro_rules!` definition. -/
def matchClause (ts : List Tok) : Option (Stmt × List Tok) :=
  match armBareCall ts with
  | some r => some r
  | none =>
    match armLetCapture ts with
    | some r => some r
    | none =>
      match armAssignCapture ts with
      | some r => some r
      | none => armPassthrough ts

/-- Fuel-indexed clause-list processor, the model of the recursive
`with!(@parse obj ...)` calls: the termination arm maps the empty
remainder to the empty statement list, otherwise one clause is consumed
and the remainder is processed recursively.  `none` models the
compile-time error when no arm matches; it makes the whole expansion
fail, so nothing is emitted.  The fuel only serves structural recursion
and is always at least the length of the list. -/
def parseClausesAux : Nat → List Tok → Option (List Stmt)
  | _, [] => some []
  | 0, _ :: _ => none
  | n + 1, t :: ts =>
    match matchClause (t :: ts) with
    | some (s, rest) =>
      match parseClausesAux n rest with
      | some S => some (s :: S)
      | none => none
    | none => none

/-- Clause-list processor: the `@parse` recursion of the macro. -/
def parseClauses (ts : List Tok) : Option (List Stmt) :=
  parseClausesAux ts.length ts

/-- Structured result of a successful expansion: the mutability flag and
initializer of the synthesized binding, and the rewritten clause list. -/
structure Expansion where
  isMut : Bool
  init : List Tok
  stmts : List Stmt

/-- Entry arm `(mut $obj:expr => $($body:tt)*)`. -/
def armEntryMut : List Tok → Option Expansion
  | Tok.kwMut :: rest =>
    match matchExpr rest with
    | some (e, Tok.fatArrow :: body) =>
      match parseClauses body with
      | some S => some ⟨true, e, S⟩
      | none => none
    | _ => none
  | _ => none

/-- Entry arm `($obj:expr => $($body:tt)*)`. -/
def armEntryPlain (ts : List Tok) : Option Expansion :=
  match matchExpr ts with
  | some (e, Tok.fatArrow :: body) =>
    match parseClauses body with
    | some S => some ⟨false, e, S⟩
    | none => none
  | _ => none

/-- The `with!` macro: the two entry arms tried in definition order.
The recursive self-reference `with!(@parse ...)` of the source resolves
at the macro's definition site (`macro_rules!` names carry definition
hygiene), which the embedding renders as the direct call to
`parseClauses`; the invocation name used by the caller plays no role
here, see `invokeMacro`. -/
def expandWith (ts : List Tok) : Option Expansion :=
  match armEntryMut ts with
  | some x => some x
  | none => armEntryPlain ts

/-- Join token runs with a separator token, as the transcription
`$($args),*` does. -/
def joinSep {α : Type} (sep : α) : List (List α) → List α
  | [] => []
  | [e] => e
  | e :: es => e ++ sep :: joinSep sep es

/-- Input span a rewritten clause was matched from: the exact tokens the
corresponding `@parse` arm consumed. -/
def srcToks : Stmt → List Tok
  | Stmt.bareCall m args =>
    [Tok.dot, Tok.ident m, Tok.paren (joinSep Tok.comma args)]
  | Stmt.letCapture p m args =>
    Tok.kwLet :: p ++ [Tok.eq, Tok.dot, Tok.ident m, Tok.paren (joinSep Tok.comma args), Tok.semi]
  | Stmt.assignCapture v m args =>
    Tok.ident v :: [Tok.eq, Tok.dot, Tok.ident m, Tok.paren (joinSep Tok.comma args), Tok.semi]
  | Stmt.passthrough e => e ++ [Tok.semi]

/-- Transcribe captured argument expressions into the output group:
each fragment keeps caller hygiene (`raw`), the separating commas are
written by the macro body. -/
def emitArgs (args : List (List Tok)) : List OTok :=
  joinSep OTok.comma (args.map (List.map OTok.raw))

/-- Code emitted for one clause by the arm bodies of the macro, for the
expansion instance with hygiene mark `mark`:
`$obj.$method($($args),*);`, `let $var = $obj.$method($($args),*);`,
`$var = $obj.$method($($args),*);`, or `$exp;`. -/
def emit (mark : Nat) : Stmt → List OTok
  | Stmt.bareCall m args =>
    OTok.bind mark :: OTok.dot :: OTok.raw (Tok.ident m) :: OTok.paren (emitArgs args) :: [OTok.semi]
  | Stmt.letCapture p m args =>
    OTok.kwLet :: p.map OTok.raw ++ OTok.eq :: OTok.bind mark :: OTok.dot ::
      OTok.raw (Tok.ident m) :: OTok.paren (emitArgs args) :: [OTok.semi]
  | Stmt.assignCapture v m args =>
    OTok.raw (Tok.ident v) :: OTok.eq :: OTok.bind mark :: OTok.dot ::
      OTok.raw (Tok.ident m) :: OTok.paren (emitArgs args) :: [OTok.semi]
  | Stmt.passthrough e => e.map OTok.raw ++ [OTok.semi]

/-- Statement sequence emitted for a clause list, one statement per
clause, in clause order. -/
def emitStmts (mark : Nat) (S : List Stmt) : List OTok :=
  (S.map (emit mark)).flatten

/-- Declaration statement the entry arms write first:
`let obj = $obj;` or `let mut obj = $obj;`. -/
def declToks (mark : Nat) (isMut : Bool) (init : List Tok) : List OTok :=
  OTok.kwLet :: (if isMut then [OTok.kwMut] else []) ++
    OTok.bind mark :: OTok.eq :: init.map OTok.raw ++ [OTok.semi]

/-- Full output block of an expansion instance: declaration, the clause
rewrites, the lone `;` left over from the `with!(@parse obj ...);`
statement once the termination arm has expanded to nothing, and the
binding as the block's trailing result expression. -/
def render (mark : Nat) (x : Expansion) : List OTok :=
  [OTok.brace (declToks mark x.isMut x.init ++ emitStmts mark x.stmts ++
    [OTok.semi, OTok.bind mark])]

mutual

/-- Boolean equality on output tokens. -/
def OTok.beq : OTok → OTok → Bool
  | OTok.raw a, OTok.raw b => Tok.beq a b
  | OTok.bind a, OTok.bind b => a == b
  | OTok.dot, OTok.dot => true
  | OTok.semi, OTok.semi => true
  | OTok.eq, OTok.eq => true
  | OTok.comma, OTok.comma => true
  | OTok.kwLet, OTok.kwLet => true
  | OTok.kwMut, OTok.kwMut => true
  | OTok.paren a, OTok.paren b => OTok.beqL a b
  | OTok.brace a, OTok.brace b => OTok.beqL a b
  | _, _ => false

/-- Boolean equality on output token lists. -/
def OTok.beqL : List OTok → List OTok → Bool
  | [], [] => true
  | a :: as, b :: bs => OTok.beq a b && OTok.beqL as bs
  | _, _ => false

/-- Boolean equality on input tokens. -/
def Tok.beq : Tok → Tok → Bool
  | Tok.ident a, Tok.ident b => a == b
  | Tok.litInt a, Tok.litInt b => a == b
  | Tok.dot, Tok.dot => true
  | Tok.semi, Tok.semi => true
  | Tok.eq, Tok.eq => true
  | Tok.comma, Tok.comma => true
  | Tok.fatArrow, Tok.fatArrow => true
  | Tok.kwLet, Tok.kwLet => true
  | Tok.kwMut, Tok.kwMut => true
  | Tok.bang, Tok.bang => true
  | Tok.pathSep, Tok.pathSep => true
  | Tok.paren a, Tok.paren b => Tok.beqL a b
  | Tok.brace a, Tok.brace b => Tok.beqL a b
  | _, _ => false

/-- Boolean equality on input token lists. -/
def Tok.beqL : List Tok → List Tok → Bool
  | [], [] => true
  | a :: as, b :: bs => Tok.beq a b && Tok.beqL as bs
  | _, _ => false

end

/-- Name resolution for an identifier occurrence: the innermost binder
token equal to the occurrence, `none` when the occurrence refers to an
enclosing (caller-side) scope.  Hygiene makes two identifier tokens
equal only when both spelling and hygiene context agree. -/
def resolveVar : List OTok → OTok → Option OTok
  | [], _ => none
  | b :: bs, r => if OTok.beq b r then some b else resolveVar bs r

mutual

/-- Occurrences of the binding identifier of expansion instance `mark`
in one output token, looking through emitted groups; a `raw` token is a
caller-context token and is never that identifier. -/
def countBindT (mark : Nat) : OTok → Nat
  | OTok.bind m => if m = mark then 1 else 0
  | OTok.paren g => countBindL mark g
  | OTok.brace g => countBindL mark g
  | _ => 0

/-- Occurrences of the binding identifier of expansion instance `mark`
in an output token list. -/
def countBindL (mark : Nat) : List OTok → Nat
  | [] => 0
  | t :: ts => countBindT mark t + countBindL mark ts

end

/-- Clause shapes that are rewritten into a method call on the binding
(everything except the passthrough fallback). -/
def callShaped : Stmt → Bool
  | Stmt.passthrough _ => false
  | _ => true

/-- Dynamic reading of an expansion block: the binding starts at the
value of the initializer and each emitted statement may transform it;
the block's value is the final binding (the trailing `obj`). -/
def runExpansion {α : Type} (step : α → Stmt → α) (v : α) (x : Expansion) : α :=
  x.stmts.foldl step v

/-- Standard reading of the four emitted statement forms over an object
state `α` and method-return values `V`: `obj.m(args);` evaluates the
call and discards its value, the two capture forms additionally bind the
returned value (to the pattern, resp. the assigned variable), and a
passthrough statement does not touch the binding or the captures. -/
def interpStmt {α V : Type} (call : α → String → List (List Tok) → α × V) :
    α × List (List Tok × V) → Stmt → α × List (List Tok × V)
  | (a, env), Stmt.bareCall m args => ((call a m args).1, env)
  | (a, env), Stmt.letCapture p m args => ((call a m args).1, (p, (call a m args).2) :: env)
  | (a, env), Stmt.assignCapture v m args => ((call a m args).1, ([Tok.ident v], (call a m args).2) :: env)
  | (a, env), Stmt.passthrough _ => (a, env)

/-- A compile-time macro definition, as a transformer of invocation
token streams. -/
def MacroDef : Type := List Tok → Option Expansion

/-- Invocation through the caller's scope: the invocation name is looked
up among the macros the caller imported (possibly under a renamed
alias); the definition found is then applied to the input tokens.  The
internal self-reference of `with!` is not looked up here: it resolves at
the definition site (see `expandWith`). -/
def invokeMacro (env : String → Option MacroDef) (name : String) (input : List Tok) : Option Expansion :=
  match env name with
  | some f => f input
  | none => none

/-- Caller scope of `tests/tests.rs`: `use with_macro::with as with_renamed;`
imports the macro under the alias only — the original name is absent. -/
def aliasEnv : String → Option MacroDef :=
  fun s => if s = "with_renamed" then some expandWith else none

/-- Invocation tokens of the `macro_name` test:
`mut Vec::new() => .push(42) .push(13)`. -/
def aliasInput : List Tok :=
  [Tok.kwMut, Tok.ident "Vec", Tok.pathSep, Tok.ident "new", Tok.paren [],
   Tok.fatArrow,
   Tok.dot, Tok.ident "push", Tok.paren [Tok.litInt 42],
   Tok.dot, Tok.ident "push", Tok.paren [Tok.litInt 13]]

/-! Consumption lemmas: every matcher consumes exactly a (non-empty)
prefix of its input, so clause scanning is streaming and deterministic. -/

theorem matchPath_spec : ∀ (ts p r : List Tok), matchPath ts = some (p, r) → ts = p ++ r ∧ p ≠ [] := by
  intro ts
  induction ts using matchPath.induct with
  | case1 s rest p0 r0 hrec ih =>
    intro p r h
    simp only [matchPath, hrec, Option.some.injEq, Prod.mk.injEq] at h
    obtain ⟨hp, hr⟩ := h
    subst hp
    subst hr
    obtain ⟨h1, _⟩ := ih p0 r0 hrec
    simp [h1]
  | case2 s rest hrec ih =>
    intro p r h
    simp only [matchPath, hrec] at h
    exact absurd h (by simp)
  | case3 s rest hne =>
    intro p r h
    cases rest with
    | nil =>
      simp only [matchPath, Option.some.injEq, Prod.mk.injEq] at h
      obtain ⟨hp, hr⟩ := h
      subst hp
      subst hr
      simp
    | cons t rest2 =>
      cases t
      case pathSep => exact absurd rfl (hne rest2)
      all_goals
        simp only [matchPath, Option.some.injEq, Prod.mk.injEq] at h
        obtain ⟨hp, hr⟩ := h
        subst hp
        subst hr
        simp
  | case4 t hne1 hne2 =>
    intro p r h
    cases t with
    | nil => simp [matchPath] at h
    | cons hd tl =>
      cases hd
      case ident s => exact absurd rfl (hne2 s tl)
      all_goals simp [matchPath] at h

theorem matchPrimary_spec (ts p r : List Tok) (h : matchPrimary ts = some (p, r)) :
    ts = p ++ r ∧ p ≠ [] := by
  rw [matchPrimary.eq_def] at h
  split at h
  · simp only [Option.some.injEq, Prod.mk.injEq] at h
    obtain ⟨hp, hr⟩ := h
    subst hp
    subst hr
    simp
  · simp only [Option.some.injEq, Prod.mk.injEq] at h
    obtain ⟨hp, hr⟩ := h
    subst hp
    subst hr
    simp
  · exact matchPath_spec _ p r h
  · simp only [Option.some.injEq, Prod.mk.injEq] at h
    obtain ⟨hp, hr⟩ := h
    subst hp
    subst hr
    simp
  · simp only [Option.some.injEq, Prod.mk.injEq] at h
    obtain ⟨hp, hr⟩ := h
    subst hp
    subst hr
    simp
  · simp only [Option.some.injEq, Prod.mk.injEq] at h
    obtain ⟨hp, hr⟩ := h
    subst hp
    subst hr
    simp
  · exact absurd h (by simp)

theorem matchCallChain_spec : ∀ (ts : List Tok), (matchCallChain ts).1 ++ (matchCallChain ts).2 = ts := by
  intro ts
  induction ts using matchCallChain.induct with
  | case1 m g rest ih => simp [matchCallChain, ih]
  | case2 g rest ih => simp [matchCallChain, ih]
  | case3 rest hne1 hne2 =>
    rw [matchCallChain.eq_def]
    split
    · rename_i m g rest2
      exact absurd rfl (hne1 m g rest2)
    · rename_i g rest2
      exact absurd rfl (hne2 g rest2)
    · simp

theorem matchSimple_spec (ts e r : List Tok) (h : matchSimple ts = some (e, r)) :
    ts = e ++ r ∧ e ≠ [] := by
  unfold matchSimple at h
  cases hp : matchPrimary ts with
  | none => simp [hp] at h
  | some pr =>
    obtain ⟨p, r1⟩ := pr
    simp only [hp, Option.some.injEq, Prod.mk.injEq] at h
    obtain ⟨he, hr⟩ := h
    subst he
    subst hr
    obtain ⟨h1, h2⟩ := matchPrimary_spec ts p r1 hp
    have hc := matchCallChain_spec r1
    constructor
    · rw [List.append_assoc, hc]
      exact h1
    · simp [h2]

theorem matchExpr_spec (ts e r : List Tok) (h : matchExpr ts = some (e, r)) :
    ts = e ++ r ∧ e ≠ [] := by
  unfold matchExpr at h
  cases hs : matchSimple ts with
  | none => simp [hs] at h
  | some er =>
    obtain ⟨e1, r1⟩ := er
    simp only [hs] at h
    obtain ⟨h1, hne⟩ := matchSimple_spec ts e1 r1 hs
    split at h
    · rename_i r2
      cases hs2 : matchSimple r2 with
      | none => simp [hs2] at h
      | some er2 =>
        obtain ⟨e2, r3⟩ := er2
        simp only [hs2, Option.some.injEq, Prod.mk.injEq] at h
        obtain ⟨he, hr⟩ := h
        subst he
        subst hr
        obtain ⟨h3, _⟩ := matchSimple_spec r2 e2 r3 hs2
        constructor
        · rw [h1, h3]
          simp
        · simp [hne]
    · simp only [Option.some.injEq, Prod.mk.injEq] at h
      obtain ⟨he, hr⟩ := h
      subst he
      subst hr
      exact ⟨h1, hne⟩

theorem matchExpr_nil : matchExpr [] = none := rfl

theorem matchExpr_kwMut (ts : List Tok) : matchExpr (Tok.kwMut :: ts) = none := rfl

theorem matchExpr_kwLet (ts : List Tok) : matchExpr (Tok.kwLet :: ts) = none := rfl

theorem matchPat_spec (ts p r : List Tok) (h : matchPat ts = some (p, r)) :
    ts = p ++ r ∧ p ≠ [] := by
  rw [matchPat.eq_def] at h
  split at h <;>
    first
    | (simp only [Option.some.injEq, Prod.mk.injEq] at h
       obtain ⟨hp, hr⟩ := h
       subst hp
       subst hr
       simp)
    | exact absurd h (by simp)

theorem matchExprList1Aux_congr :
    ∀ (n m : Nat) (ts : List Tok), ts.length ≤ n → ts.length ≤ m →
      matchExprList1Aux n ts = matchExprList1Aux m ts := by
  intro n
  induction n with
  | zero =>
    intro m ts h1 h2
    have hts : ts = [] := List.length_eq_zero.mp (Nat.le_zero.mp h1)
    subst hts
    cases m with
    | zero => rfl
    | succ m2 => simp [matchExprList1Aux, matchExpr_nil]
  | succ n ihn =>
    intro m ts h1 h2
    cases m with
    | zero =>
      have hts : ts = [] := List.length_eq_zero.mp (Nat.le_zero.mp h2)
      subst hts
      simp [matchExprList1Aux, matchExpr_nil]
    | succ m2 =>
      simp only [matchExprList1Aux]
      cases he : matchExpr ts with
      | none => rfl
      | some er =>
        obtain ⟨e, rest⟩ := er
        cases rest with
        | nil => rfl
        | cons t r =>
          cases t <;> try rfl
          case comma =>
            obtain ⟨hts, hne⟩ := matchExpr_spec ts e (Tok.comma :: r) he
            have hlen : r.length + 2 ≤ ts.length := by
              rw [hts]
              simp only [List.length_append, List.length_cons]
              have : 1 ≤ e.length := List.length_pos.mpr hne
              omega
            have heq := ihn m2 r (by omega) (by omega)
            simp [heq]

theorem matchExprList1_eq (ts : List Tok) :
    matchExprList1 ts =
      match matchExpr ts with
      | some (e, []) => some [e]
      | some (e, Tok.comma :: r) =>
        (match matchExprList1 r with
         | some es => some (e :: es)
         | none => none)
      | _ => none := by
  unfold matchExprList1
  cases ts with
  | nil => rfl
  | cons t ts2 =>
    show matchExprList1Aux (ts2.length + 1) (t :: ts2) = _
    simp only [matchExprList1Aux]
    cases he : matchExpr (t :: ts2) with
    | none => rfl
    | some er =>
      obtain ⟨e, rest⟩ := er
      cases rest with
      | nil => rfl
      | cons t2 r =>
        cases t2 <;> try rfl
        case comma =>
          obtain ⟨hts, hne⟩ := matchExpr_spec _ e (Tok.comma :: r) he
          have hlen : r.length ≤ ts2.length := by
            have : (t :: ts2).length = e.length + 1 + r.length := by
              rw [hts]
              simp [List.length_append, List.length_cons]
              omega
            have h1 : 1 ≤ e.length := List.length_pos.mpr hne
            simp only [List.length_cons] at this
            omega
          have heq := matchExprList1Aux_congr ts2.length r.length r hlen le_rfl
          simp [matchExprList1, heq]

theorem matchExprList1Aux_spec :
    ∀ (n : Nat) (g : List Tok) (args : List (List Tok)),
      matchExprList1Aux n g = some args →
      joinSep Tok.comma args = g ∧ args ≠ [] := by
  intro n g
  induction n, g using matchExprList1Aux.induct with
  | case1 ts =>
    intro args h
    simp [matchExprList1Aux] at h
  | case2 n ts e he =>
    intro args h
    simp only [matchExprList1Aux, he, Option.some.injEq] at h
    subst h
    obtain ⟨hts, _⟩ := matchExpr_spec ts e [] he
    simp [joinSep, hts]
  | case3 n ts e r he es hrec ih =>
    intro args h
    simp only [matchExprList1Aux, he, hrec, Option.some.injEq] at h
    subst h
    obtain ⟨hj, hne⟩ := ih es hrec
    obtain ⟨hts, _⟩ := matchExpr_spec ts e (Tok.comma :: r) he
    constructor
    · obtain ⟨e2, es2, rfl⟩ := List.exists_cons_of_ne_nil hne
      rw [joinSep, hts, hj]
      simp
    · simp
  | case4 n ts e r he hrec ih =>
    intro args h
    simp only [matchExprList1Aux, he, hrec] at h
    exact absurd h (by simp)
  | case5 n ts hne1 hne2 =>
    intro args h
    simp only [matchExprList1Aux] at h
    exact absurd h (by simp)

theorem matchExprList_spec (g : List Tok) (args : List (List Tok))
    (h : matchExprList g = some args) : joinSep Tok.comma args = g := by
  cases g with
  | nil =>
    simp only [matchExprList, Option.some.injEq] at h
    subst h
    rfl
  | cons t g2 =>
    simp only [matchExprList] at h
    exact (matchExprList1Aux_spec _ _ args h).1

theorem srcToks_ne_nil (s : Stmt) : srcToks s ≠ [] := by
  cases s <;> simp [srcToks]

theorem armBareCall_src (ts : List Tok) (s : Stmt) (rest : List Tok)
    (h : armBareCall ts = some (s, rest)) : ts = srcToks s ++ rest := by
  rw [armBareCall.eq_def] at h
  split at h
  · rename_i m g rest2
    cases hl : matchExprList g with
    | none => rw [hl] at h; exact absurd h (by simp)
    | some args =>
      rw [hl] at h
      simp only [Option.some.injEq, Prod.mk.injEq] at h
      obtain ⟨hs, hr⟩ := h
      subst hs
      subst hr
      simp [srcToks, matchExprList_spec g args hl]
  · exact absurd h (by simp)

theorem armLetCapture_src (ts : List Tok) (s : Stmt) (rest : List Tok)
    (h : armLetCapture ts = some (s, rest)) : ts = srcToks s ++ rest := by
  rw [armLetCapture.eq_def] at h
  split at h
  · rename_i rest0
    cases hp : matchPat rest0 with
    | none => rw [hp] at h; exact absurd h (by simp)
    | some pr =>
      obtain ⟨p, r1⟩ := pr
      rw [hp] at h
      split at h
      · rename_i p2 m g rest2 heq
        simp only [Option.some.injEq, Prod.mk.injEq] at heq
        obtain ⟨hp2, hr1⟩ := heq
        subst hp2
        subst hr1
        cases hl : matchExprList g with
        | none => rw [hl] at h; exact absurd h (by simp)
        | some args =>
          rw [hl] at h
          simp only [Option.some.injEq, Prod.mk.injEq] at h
          obtain ⟨hs, hr⟩ := h
          subst hs
          subst hr
          obtain ⟨h1, _⟩ := matchPat_spec rest0 p _ hp
          rw [h1]
          simp [srcToks, matchExprList_spec g args hl]
      · exact absurd h (by simp)
  · exact absurd h (by simp)

theorem armAssignCapture_src (ts : List Tok) (s : Stmt) (rest : List Tok)
    (h : armAssignCapture ts = some (s, rest)) : ts = srcToks s ++ rest := by
  rw [armAssignCapture.eq_def] at h
  split at h
  · rename_i v m g rest2
    cases hl : matchExprList g with
    | none => rw [hl] at h; exact absurd h (by simp)
    | some args =>
      rw [hl] at h
      simp only [Option.some.injEq, Prod.mk.injEq] at h
      obtain ⟨hs, hr⟩ := h
      subst hs
      subst hr
      simp [srcToks, matchExprList_spec g args hl]
  · exact absurd h (by simp)

theorem armPassthrough_src (ts : List Tok) (s : Stmt) (rest : List Tok)
    (h : armPassthrough ts = some (s, rest)) : ts = srcToks s ++ rest := by
  unfold armPassthrough at h
  cases he : matchExpr ts with
  | none => rw [he] at h; exact absurd h (by simp)
  | some er =>
    obtain ⟨e, r⟩ := er
    rw [he] at h
    split at h
    · rename_i e2 rest2 heq
      simp only [Option.some.injEq, Prod.mk.injEq] at heq
      obtain ⟨he2, hr2⟩ := heq
      subst he2
      subst hr2
      simp only [Option.some.injEq, Prod.mk.injEq] at h
      obtain ⟨hs, hr⟩ := h
      subst hs
      subst hr
      obtain ⟨h1, _⟩ := matchExpr_spec ts e _ he
      rw [h1]
      simp [srcToks]
    · exact absurd h (by simp)

theorem matchClause_src (ts : List Tok) (s : Stmt) (rest : List Tok)
    (h : matchClause ts = some (s, rest)) : ts = srcToks s ++ rest := by
  unfold matchClause at h
  cases h1 : armBareCall ts with
  | some r1 =>
    rw [h1] at h
    simp only [Option.some.injEq] at h
    subst h
    exact armBareCall_src ts s rest h1
  | none =>
    rw [h1] at h
    cases h2 : armLetCapture ts with
    | some r2 =>
      rw [h2] at h
      simp only [Option.some.injEq] at h
      subst h
      exact armLetCapture_src ts s rest h2
    | none =>
      rw [h2] at h
      cases h3 : armAssignCapture ts with
      | some r3 =>
        rw [h3] at h
        simp only [Option.some.injEq] at h
        subst h
        exact armAssignCapture_src ts s rest h3
      | none =>
        rw [h3] at h
        exact armPassthrough_src ts s rest h

theorem matchClause_lt (ts : List Tok) (s : Stmt) (rest : List Tok)
    (h : matchClause ts = some (s, rest)) : rest.length < ts.length := by
  have hsrc := matchClause_src ts s rest h
  have hne := srcToks_ne_nil s
  have hpos : 0 < (srcToks s).length := List.length_pos.mpr hne
  rw [hsrc]
  simp only [List.length_append]
  omega

theorem matchClause_nil : matchClause [] = none := rfl

theorem parseClausesAux_congr :
    ∀ (n m : Nat) (ts : List Tok), ts.length ≤ n → ts.length ≤ m →
      parseClausesAux n ts = parseClausesAux m ts := by
  intro n
  induction n with
  | zero =>
    intro m ts h1 h2
    have hts : ts = [] := List.length_eq_zero.mp (Nat.le_zero.mp h1)
    subst hts
    cases m <;> rfl
  | succ n ihn =>
    intro m ts h1 h2
    cases ts with
    | nil => cases m <;> rfl
    | cons t ts2 =>
      cases m with
      | zero => simp at h2
      | succ m2 =>
        simp only [parseClausesAux]
        cases hc : matchClause (t :: ts2) with
        | none => rfl
        | some sr =>
          obtain ⟨s, rest⟩ := sr
          have hlt := matchClause_lt _ s rest hc
          simp only [List.length_cons] at hlt h1 h2
          have heq := ihn m2 rest (by omega) (by omega)
          simp [heq]

theorem parseClauses_clause (ts : List Tok) (s : Stmt) (rest : List Tok)
    (h : matchClause ts = some (s, rest)) :
    parseClauses ts =
      match parseClauses rest with
      | some S => some (s :: S)
      | none => none := by
  have hne : ts ≠ [] := by
    intro he
    subst he
    rw [matchClause_nil] at h
    exact absurd h (by simp)
  obtain ⟨t, ts2, rfl⟩ := List.exists_cons_of_ne_nil hne
  have hlt := matchClause_lt _ s rest h
  simp only [List.length_cons] at hlt
  unfold parseClauses
  show parseClausesAux (ts2.length + 1) (t :: ts2) = _
  simp only [parseClausesAux, h]
  have heq := parseClausesAux_congr ts2.length rest.length rest (by omega) le_rfl
  simp [heq]

theorem parseClauses_noneStep (ts : List Tok) (h : matchClause ts = none)
    (hne : ts ≠ []) : parseClauses ts = none := by
  obtain ⟨t, ts2, rfl⟩ := List.exists_cons_of_ne_nil hne
  unfold parseClauses
  show parseClausesAux (ts2.length + 1) (t :: ts2) = _
  simp [parseClausesAux, h]

theorem parseClauses_nil : parseClauses [] = some [] := rfl

theorem parse_src_aux :
    ∀ (n : Nat) (ts : List Tok), ts.length ≤ n → ∀ (S : List Stmt),
      parseClauses ts = some S → (S.map srcToks).flatten = ts := by
  intro n
  induction n with
  | zero =>
    intro ts h S hp
    have hts : ts = [] := List.length_eq_zero.mp (Nat.le_zero.mp h)
    subst hts
    rw [parseClauses_nil] at hp
    simp only [Option.some.injEq] at hp
    subst hp
    rfl
  | succ n ihn =>
    intro ts h S hp
    cases hts : ts with
    | nil =>
      subst hts
      rw [parseClauses_nil] at hp
      simp only [Option.some.injEq] at hp
      subst hp
      rfl
    | cons t ts2 =>
      subst hts
      cases hc : matchClause (t :: ts2) with
      | none =>
        rw [parseClauses_noneStep _ hc (by simp)] at hp
        exact absurd hp (by simp)
      | some sr =>
        obtain ⟨s, rest⟩ := sr
        rw [parseClauses_clause _ s rest hc] at hp
        cases hrest : parseClauses rest with
        | none => rw [hrest] at hp; exact absurd hp (by simp)
        | some S2 =>
          rw [hrest] at hp
          simp only [Option.some.injEq] at hp
          subst hp
          have hlt := matchClause_lt _ s rest hc
          simp only [List.length_cons] at hlt h
          have ih := ihn rest (by omega) S2 hrest
          simp only [List.map_cons, List.flatten_cons, ih]
          exact (matchClause_src _ s rest hc).symm

theorem parseClauses_src (ts : List Tok) (S : List Stmt)
    (h : parseClauses ts = some S) : (S.map srcToks).flatten = ts :=
  parse_src_aux ts.length ts le_rfl S h

/-! Emission and hygiene helper lemmas. -/

theorem joinSep_cons_cons {α : Type} (sep : α) (a b : List α) (L : List (List α)) :
    joinSep sep (a :: b :: L) = a ++ sep :: joinSep sep (b :: L) := rfl

theorem countBindL_append (mu : Nat) (a b : List OTok) :
    countBindL mu (a ++ b) = countBindL mu a + countBindL mu b := by
  induction a with
  | nil => simp [countBindL]
  | cons t ts ih => simp [countBindL, ih, Nat.add_assoc]

theorem countBindL_map_raw (mu : Nat) (l : List Tok) :
    countBindL mu (l.map OTok.raw) = 0 := by
  induction l with
  | nil => simp [countBindL]
  | cons t ts ih => simp [countBindL, countBindT, ih]

theorem countBindL_emitArgs (mu : Nat) (args : List (List Tok)) :
    countBindL mu (emitArgs args) = 0 := by
  unfold emitArgs
  induction args with
  | nil => simp [joinSep, countBindL]
  | cons e es ih =>
    cases es with
    | nil => simp [joinSep, countBindL_map_raw]
    | cons e2 es2 =>
      have hstep : joinSep OTok.comma ((e :: e2 :: es2).map (List.map OTok.raw)) =
          e.map OTok.raw ++ OTok.comma :: joinSep OTok.comma ((e2 :: es2).map (List.map OTok.raw)) := rfl
      rw [hstep, countBindL_append, countBindL_map_raw]
      have ih2 : countBindL mu (joinSep OTok.comma
          (List.map OTok.raw e2 :: List.map (List.map OTok.raw) es2)) = 0 := by
        simpa using ih
      simp [countBindL, countBindT, ih2]

theorem countBindL_emit_self (mu : Nat) (s : Stmt) :
    countBindL mu (emit mu s) = if callShaped s then 1 else 0 := by
  cases s <;>
    simp [emit, callShaped, countBindL, countBindT, countBindL_append,
      countBindL_map_raw, countBindL_emitArgs]

theorem countBindL_emit_ne (mu1 mu2 : Nat) (h : mu1 ≠ mu2) (s : Stmt) :
    countBindL mu1 (emit mu2 s) = 0 := by
  cases s <;>
    simp [emit, countBindL, countBindT, countBindL_append,
      countBindL_map_raw, countBindL_emitArgs, Ne.symm h]

theorem countBindL_emitStmts_ne (mu1 mu2 : Nat) (h : mu1 ≠ mu2) (S : List Stmt) :
    countBindL mu1 (emitStmts mu2 S) = 0 := by
  induction S with
  | nil => simp [emitStmts, countBindL]
  | cons s S2 ih =>
    have hstep : emitStmts mu2 (s :: S2) = emit mu2 s ++ emitStmts mu2 S2 := by
      simp [emitStmts]
    rw [hstep, countBindL_append, countBindL_emit_ne mu1 mu2 h s, ih]

/-! Entry-arm helper lemmas. -/

theorem armEntryMut_of_expr (E body : List Tok)
    (hE : matchExpr (E ++ Tok.fatArrow :: body) = some (E, Tok.fatArrow :: body)) :
    armEntryMut (E ++ Tok.fatArrow :: body) = none := by
  cases hE2 : E with
  | nil => simp [armEntryMut]
  | cons t E2 =>
    cases t
    case kwMut =>
      rw [hE2, List.cons_append, matchExpr_kwMut] at hE
      exact absurd hE (by simp)
    all_goals simp [armEntryMut]

theorem expandWith_plain (E body : List Tok) (S : List Stmt)
    (hE : matchExpr (E ++ Tok.fatArrow :: body) = some (E, Tok.fatArrow :: body))
    (hS : parseClauses body = some S) :
    expandWith (E ++ Tok.fatArrow :: body) = some ⟨false, E, S⟩ := by
  unfold expandWith
  rw [armEntryMut_of_expr E body hE]
  simp [armEntryPlain, hE, hS]

theorem expandWith_mut (E body : List Tok) (S : List Stmt)
    (hE : matchExpr (E ++ Tok.fatArrow :: body) = some (E, Tok.fatArrow :: body))
    (hS : parseClauses body = some S) :
    expandWith (Tok.kwMut :: (E ++ Tok.fatArrow :: body)) = some ⟨true, E, S⟩ := by
  unfold expandWith
  have h1 : armEntryMut (Tok.kwMut :: (E ++ Tok.fatArrow :: body)) = some ⟨true, E, S⟩ := by
    simp [armEntryMut, hE, hS]
  rw [h1]

/-! Claim theorems. -/

/-- C1: a clause that matches none of the three call shapes and is a
complete statement terminated by `;` is accepted as a passthrough clause:
it is re-emitted verbatim — the emitted tokens are exactly the clause's
own tokens under the raw (caller-hygiene) embedding, unmodified, plus the
trailing separator — and it keeps its position in the output statement
sequence. -/
theorem passthrough_verbatim (mark : Nat) (ts e rest : List Tok) (S : List Stmt)
    (h1 : armBareCall ts = none) (h2 : armLetCapture ts = none)
    (h3 : armAssignCapture ts = none)
    (h4 : matchExpr ts = some (e, Tok.semi :: rest))
    (h5 : parseClauses rest = some S) :
    matchClause ts = some (Stmt.passthrough e, rest) ∧
    parseClauses ts = some (Stmt.passthrough e :: S) ∧
    emit mark (Stmt.passthrough e) = e.map OTok.raw ++ [OTok.semi] ∧
    emitStmts mark (Stmt.passthrough e :: S) =
      (e.map OTok.raw ++ [OTok.semi]) ++ emitStmts mark S := by
  have hc : matchClause ts = some (Stmt.passthrough e, rest) := by
    unfold matchClause
    rw [h1, h2, h3]
    unfold armPassthrough
    rw [h4]
  refine ⟨hc, ?_, rfl, ?_⟩
  · rw [parseClauses_clause ts _ rest hc, h5]
  · simp [emitStmts, emit]

theorem passthrough_verbatim_wit :
    matchClause [Tok.ident "f", Tok.paren [], Tok.semi] =
      some (Stmt.passthrough [Tok.ident "f", Tok.paren []], []) ∧
    emit 0 (Stmt.passthrough [Tok.ident "f", Tok.paren []]) =
      [OTok.raw (Tok.ident "f"), OTok.raw (Tok.paren []), OTok.semi] := by
  have h := passthrough_verbatim 0 [Tok.ident "f", Tok.paren [], Tok.semi]
    [Tok.ident "f", Tok.paren []] [] [] rfl rfl rfl rfl rfl
  exact ⟨h.1, by simpa using h.2.2.1⟩

/-- C2: for every input token stream, invoking the construct through any
name the caller's import environment binds to it yields exactly the
expansion of the definition itself, so any two aliases agree; the
construct's internal self-reference resolves at the definition site (the
direct recursion inside `expandWith`) and never consults the caller's
environment, so the original name need not be in scope. -/
theorem alias_invariance (env : String → Option MacroDef) (n1 n2 : String)
    (input : List Tok) (h1 : env n1 = some expandWith)
    (h2 : env n2 = some expandWith) :
    invokeMacro env n1 input = expandWith input ∧
    invokeMacro env n1 input = invokeMacro env n2 input := by
  unfold invokeMacro
  rw [h1, h2]
  exact ⟨rfl, rfl⟩

theorem alias_invariance_wit :
    aliasEnv "with" = none ∧
    invokeMacro aliasEnv "with_renamed" aliasInput = expandWith aliasInput ∧
    expandWith aliasInput =
      some ⟨true, [Tok.ident "Vec", Tok.pathSep, Tok.ident "new", Tok.paren []],
        [Stmt.bareCall "push" [[Tok.litInt 42]], Stmt.bareCall "push" [[Tok.litInt 13]]]⟩ := by
  refine ⟨rfl, ?_, rfl⟩
  exact (alias_invariance aliasEnv "with_renamed" "with_renamed" aliasInput rfl rfl).1

/-- C3: a successful expansion of `[mut] E => body` captures `E` as the
initializer, is mutable exactly when the `mut` keyword was given, and its
rendered block opens with the declaration `let [mut] obj = E;` and closes
with the binding itself as the block's value. -/
theorem binding_decl_mutability (m : Bool) (E body : List Tok) (S : List Stmt)
    (mark : Nat)
    (hE : matchExpr (E ++ Tok.fatArrow :: body) = some (E, Tok.fatArrow :: body))
    (hS : parseClauses body = some S) :
    expandWith ((if m then [Tok.kwMut] else []) ++ E ++ Tok.fatArrow :: body) =
      some ⟨m, E, S⟩ ∧
    render mark ⟨m, E, S⟩ =
      [OTok.brace ((OTok.kwLet :: (if m then [OTok.kwMut] else []) ++
        OTok.bind mark :: OTok.eq :: E.map OTok.raw ++ [OTok.semi]) ++
        emitStmts mark S ++ [OTok.semi, OTok.bind mark])] := by
  constructor
  · cases m with
    | true =>
      show expandWith (Tok.kwMut :: (E ++ Tok.fatArrow :: body)) = some ⟨true, E, S⟩
      exact expandWith_mut E body S hE hS
    | false =>
      show expandWith (E ++ Tok.fatArrow :: body) = some ⟨false, E, S⟩
      exact expandWith_plain E body S hE hS
  · rfl

theorem binding_decl_mutability_wit :
    expandWith [Tok.kwMut, Tok.ident "v", Tok.fatArrow] =
      some ⟨true, [Tok.ident "v"], []⟩ := by
  have h := binding_decl_mutability true [Tok.ident "v"] [] [] 0 rfl rfl
  simpa using h.1

/-- C4: a successful parse of a clause list decomposes the input exactly
into the per-clause source spans, in order: the i-th emitted statement is
the rewrite of the i-th clause, no clause is reordered, dropped or
duplicated, and emission produces exactly one output statement per
clause, in the same order. -/
theorem order_preservation (ts : List Tok) (S : List Stmt) (mark : Nat)
    (h : parseClauses ts = some S) :
    (S.map srcToks).flatten = ts ∧
    emitStmts mark S = (S.map (emit mark)).flatten ∧
    S.length = (S.map srcToks).length :=
  ⟨parseClauses_src ts S h, rfl, by simp⟩

theorem order_preservation_wit :
    parseClauses [Tok.dot, Tok.ident "push", Tok.paren [Tok.litInt 1],
      Tok.dot, Tok.ident "push", Tok.paren [Tok.litInt 2],
      Tok.ident "f", Tok.paren [], Tok.semi] =
      some [Stmt.bareCall "push" [[Tok.litInt 1]], Stmt.bareCall "push" [[Tok.litInt 2]],
        Stmt.passthrough [Tok.ident "f", Tok.paren []]] ∧
    (([Stmt.bareCall "push" [[Tok.litInt 1]], Stmt.bareCall "push" [[Tok.litInt 2]],
        Stmt.passthrough [Tok.ident "f", Tok.paren []]].map srcToks).flatten =
      [Tok.dot, Tok.ident "push", Tok.paren [Tok.litInt 1],
       Tok.dot, Tok.ident "push", Tok.paren [Tok.litInt 2],
       Tok.ident "f", Tok.paren [], Tok.semi]) := by
  refine ⟨rfl, ?_⟩
  exact (order_preservation
    [Tok.dot, Tok.ident "push", Tok.paren [Tok.litInt 1],
     Tok.dot, Tok.ident "push", Tok.paren [Tok.litInt 2],
     Tok.ident "f", Tok.paren [], Tok.semi]
    [Stmt.bareCall "push" [[Tok.litInt 1]], Stmt.bareCall "push" [[Tok.litInt 2]],
     Stmt.passthrough [Tok.ident "f", Tok.paren []]] 0 rfl).1

/-- C5: the per-clause rewrite is the deterministic ordered dispatch on
the three call shapes: `.m(args)` becomes `binding.m(args);`,
`let pat = .m(args);` becomes `let pat = binding.m(args);`, and
`var = .m(args);` becomes `var = binding.m(args);`, the arms being tried
in that order, every rewrite referencing the enclosing expansion's single
synthesized binding. -/
theorem clause_dispatch (mark : Nat) (m v : String) (p g rest : List Tok)
    (args : List (List Tok)) (hg : matchExprList g = some args)
    (hp : matchPat (p ++ Tok.eq :: Tok.dot :: Tok.ident m :: Tok.paren g :: Tok.semi :: rest) =
      some (p, Tok.eq :: Tok.dot :: Tok.ident m :: Tok.paren g :: Tok.semi :: rest)) :
    matchClause (Tok.dot :: Tok.ident m :: Tok.paren g :: rest) =
      some (Stmt.bareCall m args, rest) ∧
    matchClause (Tok.kwLet :: p ++ Tok.eq :: Tok.dot :: Tok.ident m :: Tok.paren g :: Tok.semi :: rest) =
      some (Stmt.letCapture p m args, rest) ∧
    matchClause (Tok.ident v :: Tok.eq :: Tok.dot :: Tok.ident m :: Tok.paren g :: Tok.semi :: rest) =
      some (Stmt.assignCapture v m args, rest) ∧
    emit mark (Stmt.bareCall m args) =
      OTok.bind mark :: OTok.dot :: OTok.raw (Tok.ident m) ::
        OTok.paren (emitArgs args) :: [OTok.semi] ∧
    emit mark (Stmt.letCapture p m args) =
      OTok.kwLet :: p.map OTok.raw ++ OTok.eq :: OTok.bind mark :: OTok.dot ::
        OTok.raw (Tok.ident m) :: OTok.paren (emitArgs args) :: [OTok.semi] ∧
    emit mark (Stmt.assignCapture v m args) =
      OTok.raw (Tok.ident v) :: OTok.eq :: OTok.bind mark :: OTok.dot ::
        OTok.raw (Tok.ident m) :: OTok.paren (emitArgs args) :: [OTok.semi] := by
  refine ⟨?_, ?_, ?_, rfl, rfl, rfl⟩
  · unfold matchClause
    have h1 : armBareCall (Tok.dot :: Tok.ident m :: Tok.paren g :: rest) =
        some (Stmt.bareCall m args, rest) := by
      simp [armBareCall, hg]
    rw [h1]
  · unfold matchClause
    have h1 : armBareCall (Tok.kwLet :: (p ++ Tok.eq :: Tok.dot :: Tok.ident m ::
        Tok.paren g :: Tok.semi :: rest)) = none := rfl
    have h2 : armLetCapture (Tok.kwLet :: (p ++ Tok.eq :: Tok.dot :: Tok.ident m ::
        Tok.paren g :: Tok.semi :: rest)) = some (Stmt.letCapture p m args, rest) := by
      simp [armLetCapture, hp, hg]
    rw [List.cons_append, h1, h2]
  · unfold matchClause
    have h1 : armBareCall (Tok.ident v :: Tok.eq :: Tok.dot :: Tok.ident m ::
        Tok.paren g :: Tok.semi :: rest) = none := rfl
    have h2 : armLetCapture (Tok.ident v :: Tok.eq :: Tok.dot :: Tok.ident m ::
        Tok.paren g :: Tok.semi :: rest) = none := rfl
    have h3 : armAssignCapture (Tok.ident v :: Tok.eq :: Tok.dot :: Tok.ident m ::
        Tok.paren g :: Tok.semi :: rest) = some (Stmt.assignCapture v m args, rest) := by
      simp [armAssignCapture, hg]
    rw [h1, h2, h3]

theorem clause_dispatch_wit :
    matchClause [Tok.kwLet, Tok.ident "l", Tok.eq, Tok.dot, Tok.ident "len",
      Tok.paren [], Tok.semi] = some (Stmt.letCapture [Tok.ident "l"] "len" [], []) ∧
    matchClause [Tok.ident "a", Tok.eq, Tok.dot, Tok.ident "len",
      Tok.paren [], Tok.semi] = some (Stmt.assignCapture "a" "len" [], []) := by
  have h := clause_dispatch 0 "len" "a" [Tok.ident "l"] [] [] [] rfl rfl
  exact ⟨by simpa using h.2.1, by simpa using h.2.2.1⟩

/-- C6: every expansion instance introduces exactly one synthesized
binding (its rendered block opens with the single declaration of its own
marked binding), and a nested instance with a different hygiene mark is
independent: the two binding identifiers are distinct, the inner
expansion's output contains no reference to the outer binding, every
call-shaped clause of an expansion references exactly its own binding
(a passthrough references it not at all), and a nested invocation used
as an argument is consumed by the outer rewrite as one opaque argument
expression, leaving the outer expansion's behavior unchanged. -/
theorem nested_binding_independence (mu1 mu2 : Nat) (hne : mu1 ≠ mu2)
    (x : Expansion) (s : Stmt) (g rest : List Tok) :
    OTok.bind mu1 ≠ OTok.bind mu2 ∧
    (∃ tl, render mu2 x =
      [OTok.brace (OTok.kwLet :: (if x.isMut then [OTok.kwMut] else []) ++
        OTok.bind mu2 :: OTok.eq :: tl)]) ∧
    countBindL mu2 (emit mu2 s) = (if callShaped s then 1 else 0) ∧
    countBindL mu1 (emit mu2 s) = 0 ∧
    countBindL mu1 (render mu2 x) = 0 ∧
    matchClause (Tok.dot :: Tok.ident "push" ::
        Tok.paren [Tok.ident "with", Tok.bang, Tok.brace g] :: rest) =
      some (Stmt.bareCall "push" [[Tok.ident "with", Tok.bang, Tok.brace g]], rest) := by
  refine ⟨by simp [hne], ?_, countBindL_emit_self mu2 s, countBindL_emit_ne mu1 mu2 hne s,
    ?_, ?_⟩
  · refine ⟨x.init.map OTok.raw ++ [OTok.semi] ++ emitStmts mu2 x.stmts ++
      [OTok.semi, OTok.bind mu2], ?_⟩
    simp [render, declToks]
  · have hdecl : countBindL mu1 (declToks mu2 x.isMut x.init) = 0 := by
      cases hM : x.isMut <;>
        simp [declToks, countBindL, countBindT, countBindL_append,
          countBindL_map_raw, Ne.symm hne]
    simp [render, countBindL, countBindT, countBindL_append, hdecl,
      countBindL_emitStmts_ne mu1 mu2 hne, Ne.symm hne]
    constructor
    · cases x.isMut <;> simp [countBindL, countBindT]
    · exact countBindL_map_raw mu1 x.init
  · have hargs : matchExprList [Tok.ident "with", Tok.bang, Tok.brace g] =
        some [[Tok.ident "with", Tok.bang, Tok.brace g]] := rfl
    unfold matchClause
    have h1 : armBareCall (Tok.dot :: Tok.ident "push" ::
        Tok.paren [Tok.ident "with", Tok.bang, Tok.brace g] :: rest) =
        some (Stmt.bareCall "push" [[Tok.ident "with", Tok.bang, Tok.brace g]], rest) := by
      simp [armBareCall, hargs]
    rw [h1]

theorem nested_binding_independence_wit :
    OTok.bind 0 ≠ OTok.bind 1 ∧
    countBindL 0 (render 1 ⟨false, [Tok.ident "v"], []⟩) = 0 ∧
    countBindL 1 (emit 1 (Stmt.bareCall "push" [[Tok.litInt 3]])) = 1 := by
  have h := nested_binding_independence 0 1 (by decide) ⟨false, [Tok.ident "v"], []⟩
    (Stmt.bareCall "push" [[Tok.litInt 3]]) [] []
  exact ⟨h.1, h.2.2.2.2.1, by simpa using h.2.2.1⟩

/-- C7: an invocation `E =>` with an empty clause list expands to the
structured result with no statements — the clause recursion terminates on
the empty remainder contributing nothing — and every dynamic reading of
that expansion returns the initializing expression's value unchanged. -/
theorem empty_clause_identity (E : List Tok) (mark : Nat)
    (hE : matchExpr (E ++ [Tok.fatArrow]) = some (E, [Tok.fatArrow])) :
    expandWith (E ++ [Tok.fatArrow]) = some ⟨false, E, []⟩ ∧
    parseClauses [] = some [] ∧
    emitStmts mark [] = [] ∧
    ∀ (α : Type) (step : α → Stmt → α) (v : α),
      runExpansion step v ⟨false, E, []⟩ = v := by
  refine ⟨?_, rfl, rfl, fun α step v => rfl⟩
  exact expandWith_plain E [] [] hE rfl

theorem empty_clause_identity_wit :
    expandWith [Tok.ident "v", Tok.fatArrow] = some ⟨false, [Tok.ident "v"], []⟩ ∧
    runExpansion (fun (a : Nat) _ => a + 1) 0 ⟨false, [Tok.ident "v"], []⟩ = 0 := by
  have h := empty_clause_identity [Tok.ident "v"] 0 rfl
  exact ⟨by simpa using h.1, h.2.2.2 Nat (fun a _ => a + 1) 0⟩

/-- C8: expansion is all-or-nothing.  When some clause of the body fails
to match every arm, the whole clause parse is `none`, and both entry arms
of the invocation — with and without `mut` — produce no output at all;
there is no partial expansion. -/
theorem all_or_nothing (E ts rest : List Tok) (s : Stmt)
    (hE : matchExpr (E ++ Tok.fatArrow :: ts) = some (E, Tok.fatArrow :: ts))
    (hc : matchClause ts = some (s, rest)) (hf : parseClauses rest = none) :
    parseClauses ts = none ∧
    expandWith (E ++ Tok.fatArrow :: ts) = none ∧
    expandWith (Tok.kwMut :: (E ++ Tok.fatArrow :: ts)) = none := by
  have hp : parseClauses ts = none := by
    rw [parseClauses_clause ts s rest hc, hf]
  refine ⟨hp, ?_, ?_⟩
  · unfold expandWith
    rw [armEntryMut_of_expr E ts hE]
    simp [armEntryPlain, hE, hp]
  · unfold expandWith
    have h1 : armEntryMut (Tok.kwMut :: (E ++ Tok.fatArrow :: ts)) = none := by
      simp [armEntryMut, hE, hp]
    rw [h1]
    simp [armEntryPlain, matchExpr_kwMut]

theorem all_or_nothing_wit :
    parseClauses [Tok.dot, Tok.ident "m", Tok.paren [], Tok.kwLet, Tok.ident "l",
      Tok.eq, Tok.dot, Tok.ident "len", Tok.paren []] = none ∧
    expandWith [Tok.ident "v", Tok.fatArrow, Tok.dot, Tok.ident "m", Tok.paren [],
      Tok.kwLet, Tok.ident "l", Tok.eq, Tok.dot, Tok.ident "len", Tok.paren []] = none := by
  have h := all_or_nothing [Tok.ident "v"]
    [Tok.dot, Tok.ident "m", Tok.paren [], Tok.kwLet, Tok.ident "l",
     Tok.eq, Tok.dot, Tok.ident "len", Tok.paren []]
    [Tok.kwLet, Tok.ident "l", Tok.eq, Tok.dot, Tok.ident "len", Tok.paren []]
    (Stmt.bareCall "m" []) rfl rfl rfl
  exact ⟨h.1, by simpa using h.2.1⟩

/-- C9: a bare-call clause is emitted as a `;`-terminated call statement
on the binding, so the method's return value is discarded: the captures
environment after it is unchanged and the result state does not depend on
what value the method returned; only the let-capture and assign-capture
forms bind the returned value. -/
theorem bare_call_discards {α V : Type} (call : α → String → List (List Tok) → α × V)
    (a : α) (env : List (List Tok × V)) (m v : String) (p : List Tok)
    (args : List (List Tok)) (mark : Nat) :
    emit mark (Stmt.bareCall m args) =
      OTok.bind mark :: OTok.dot :: OTok.raw (Tok.ident m) ::
        OTok.paren (emitArgs args) :: [OTok.semi] ∧
    interpStmt call (a, env) (Stmt.bareCall m args) = ((call a m args).1, env) ∧
    (∀ (w : V), interpStmt (fun a2 m2 args2 => ((call a2 m2 args2).1, w)) (a, env)
      (Stmt.bareCall m args) = interpStmt call (a, env) (Stmt.bareCall m args)) ∧
    interpStmt call (a, env) (Stmt.letCapture p m args) =
      ((call a m args).1, (p, (call a m args).2) :: env) ∧
    interpStmt call (a, env) (Stmt.assignCapture v m args) =
      ((call a m args).1, ([Tok.ident v], (call a m args).2) :: env) :=
  ⟨rfl, rfl, fun _ => rfl, rfl, rfl⟩

theorem bare_call_discards_wit :
    interpStmt (fun (a : Int) (_ : String) (_ : List (List Tok)) => (a + 1, a))
      ((0 : Int), []) (Stmt.bareCall "m" []) = (1, []) := by
  have h := bare_call_discards
    (fun (a : Int) (_ : String) (_ : List (List Tok)) => (a + 1, a))
    0 [] "m" "v" [] [] 0
  simpa using h.2.1

/-- C10: hygiene isolates the synthesized binding even though every
expansion spells it `obj`: a caller-context token is never the macro's
binding identifier, a caller identifier occurrence (such as a caller's
own `obj`) resolves past the macro's binder to the caller's own scope,
the macro's own binding occurrence resolves to the macro's binder, and
transcribed caller fragments contain no occurrence of the synthesized
binding, so no clause can name it. -/
theorem hygiene_isolation (mark : Nat) (t : Tok) (scope : List OTok) (e : List Tok) :
    OTok.raw t ≠ OTok.bind mark ∧
    resolveVar (OTok.bind mark :: scope) (OTok.raw t) = resolveVar scope (OTok.raw t) ∧
    resolveVar (OTok.bind mark :: scope) (OTok.bind mark) = some (OTok.bind mark) ∧
    countBindL mark (e.map OTok.raw) = 0 := by
  refine ⟨by simp, ?_, ?_, countBindL_map_raw mark e⟩
  · simp [resolveVar, OTok.beq]
  · simp [resolveVar, OTok.beq]

theorem hygiene_isolation_wit :
    resolveVar [OTok.bind 0, OTok.raw (Tok.ident "obj")] (OTok.raw (Tok.ident "obj")) =
      resolveVar [OTok.raw (Tok.ident "obj")] (OTok.raw (Tok.ident "obj")) ∧
    resolveVar [OTok.raw (Tok.ident "obj")] (OTok.raw (Tok.ident "obj")) =
      some (OTok.raw (Tok.ident "obj")) := by
  have h := hygiene_isolation 0 (Tok.ident "obj") [OTok.raw (Tok.ident "obj")] []
  refine ⟨h.2.1, ?_⟩
  simp [resolveVar, OTok.beq, Tok.beq]
